import Mathlib

/-!
Verification of the CloudABI POSIX emulator (`src/libemulator/posix.c`).

The development shallowly embeds the parts of the emulator the claims
concern: the errno/time conversions, the file-descriptor table, the
emulated path resolver of `path_get` (including the invalid free its
pathname-stack pop performs at `posix.c:1366`), the
seek/stat-put/replace/pread system calls, the `sys_poll` timeout
computation and the resource accounting of `path_get` and
`sys_sock_send` error paths.

Machine integers are modelled as `Nat`/`Int`; 64-bit right masks are
`Nat` values below `2 ^ 64` and the C complement `~x` on a mask becomes
`x ^^^ (2 ^ 64 - 1)`.  Pathname strings are `List Char`.  Host system
calls (openat, readlinkat, lseek, pread, sendmsg) are oracles supplied
as function arguments, so every embedded operation is a pure function.
-/

namespace CloudABI

/-- CloudABI error codes (`cloudabi_errno_t`).  `success` is the zero
value; only the codes reachable in the embedded fragment are listed. -/
inductive Errno where
  | success
  | acces
  | again
  | badf
  | busy
  | exist
  | ilseq
  | intr
  | inval
  | io
  | isdir
  | loop
  | mlink
  | nametoolong
  | noent
  | nomem
  | nosys
  | notcapable
  | notdir
  | notsup
  | perm
  | spipe
  deriving DecidableEq, Repr

/-- Host errno values that the embedded fragment can observe.  The
emulated (`CONFIG_HAS_CAP_ENTER` disabled) build runs on hosts without
Capsicum, so `ENOTCAPABLE` does not occur as a host errno. -/
inductive HostErrno where
  | eacces
  | eagain
  | ebusy
  | eexist
  | eintr
  | einval
  | eio
  | eisdir
  | eloop
  | emlink
  | enametoolong
  | enoent
  | enomem
  | enosys
  | enotdir
  | eperm
  | espipe
  deriving DecidableEq, Repr

/-- The rows of the `convert_errno` table restricted to `HostErrno`;
each listed host errno maps to its CloudABI counterpart (`X(v)` rows of
the C table). -/
def convert_errno : HostErrno → Errno
  | .eacces => .acces
  | .eagain => .again
  | .ebusy => .busy
  | .eexist => .exist
  | .eintr => .intr
  | .einval => .inval
  | .eio => .io
  | .eisdir => .isdir
  | .eloop => .loop
  | .emlink => .mlink
  | .enametoolong => .nametoolong
  | .enoent => .noent
  | .enomem => .nomem
  | .enosys => .nosys
  | .enotdir => .notdir
  | .eperm => .perm
  | .espipe => .spipe

/-! ## Time conversion (`convert_timespec`) -/

/-- `UINT64_MAX`. -/
def U64_MAX : Nat := 2 ^ 64 - 1

/-- Embedding of `convert_timespec`: a host `timespec` (signed seconds,
nanoseconds) to a `cloudabi_timestamp_t` (`uint64`).  The additions are
performed in 64-bit unsigned arithmetic, hence the `% 2 ^ 64`. -/
def convert_timespec (sec : Int) (nsec : Int) : Nat :=
  if sec < 0 then 0
  else if sec.toNat ≥ U64_MAX / 1000000000 then U64_MAX
  else (sec.toNat * 1000000000 + nsec.toNat) % 2 ^ 64

/-! ## `sys_poll` host timeout computation -/

/-- Host `INT_MAX`. -/
def INT_MAX : Nat := 2 ^ 31 - 1

/-- Embedding of the timeout computation of `sys_poll` (the code that
runs just before the host `poll` call): `neventsPre` is the number of
events already queued by the subscription-conversion loop, and
`clockTimeout` is the relative clock subscription's timeout in
nanoseconds, when such a subscription exists. -/
def sys_poll_timeout (neventsPre : Nat) (clockTimeout : Option Nat) : Int :=
  if neventsPre ≠ 0 then 0
  else
    match clockTimeout with
    | some t =>
        let ts := t / 1000000
        if ts > INT_MAX then -1 else (ts : Int)
    | none => -1

/-- The timeout computation as the claim words it: the timer value in
milliseconds is clamped to the host poll-timeout range, i.e. to at most
`INT_MAX`. -/
def sys_poll_timeout_claim (neventsPre : Nat) (clockTimeout : Option Nat) : Int :=
  if neventsPre ≠ 0 then 0
  else
    match clockTimeout with
    | some t => (min (t / 1000000) INT_MAX : Nat)
    | none => -1

/-- The amended wording: the timer value in milliseconds when it does
not exceed `INT_MAX`, and `-1` (wait indefinitely) when it does. -/
def sys_poll_timeout_amended (neventsPre : Nat) (clockTimeout : Option Nat) : Int :=
  if neventsPre ≠ 0 then 0
  else
    match clockTimeout with
    | some t => if t / 1000000 ≤ INT_MAX then (t / 1000000 : Nat) else -1
    | none => -1

/-! ## Rights masks

The right-bit constants come from `rights.h`, which only assigns each
right a distinct bit of a 64-bit mask.  Modelled from the spec: "Right
bits. A 64-bit bitmask; per-type default masks are fixed constants" —
the emulator's logic depends only on the bits being distinct. -/

def CLOUDABI_RIGHT_FD_DATASYNC : Nat := 2 ^ 0
def CLOUDABI_RIGHT_FD_READ : Nat := 2 ^ 1
def CLOUDABI_RIGHT_FD_SEEK : Nat := 2 ^ 2
def CLOUDABI_RIGHT_FD_STAT_PUT_FLAGS : Nat := 2 ^ 3
def CLOUDABI_RIGHT_FD_SYNC : Nat := 2 ^ 4
def CLOUDABI_RIGHT_FD_TELL : Nat := 2 ^ 5
def CLOUDABI_RIGHT_FD_WRITE : Nat := 2 ^ 6
def CLOUDABI_RIGHT_POLL_FD_READWRITE : Nat := 2 ^ 7

/-! ## File descriptor table -/

/-- One slot of the file descriptor table (`struct fd_entry`), with the
object's pointer identity (`obj`) and its host descriptor (`number`,
field of `struct fd_object`) inlined. -/
structure FdEntry where
  obj : Nat
  number : Int
  rights_base : Nat
  rights_inheriting : Nat
  deriving DecidableEq, Repr

/-- The file descriptor table (`struct fd_table`): `entries` is the
slot array (`size` is its length) and `used` counts occupied slots. -/
structure FdTable where
  entries : List (Option FdEntry)
  used : Nat
  deriving DecidableEq, Repr

def FdTable.size (t : FdTable) : Nat := t.entries.length

/-- Embedding of `fd_table_get_entry`.  The C code returns `EBADF` both
for `fd >= ft->size` and for an empty slot; `getD fd none` folds the
two cases into one `none`.  A required right missing from the slot's
masks gives `ENOTCAPABLE` (`(~have & need) != 0` written over `Nat` as
`(have ^^^ (2^64 - 1)) &&& need ≠ 0`). -/
def fd_table_get_entry (t : FdTable) (fd : Nat)
    (rights_base rights_inheriting : Nat) : Except Errno FdEntry :=
  match t.entries.getD fd none with
  | none => .error .badf
  | some fe =>
      if (fe.rights_base ^^^ U64_MAX) &&& rights_base ≠ 0 ∨
          (fe.rights_inheriting ^^^ U64_MAX) &&& rights_inheriting ≠ 0 then
        .error .notcapable
      else .ok fe

/-- The doubling loop of `fd_table_grow`: starting from a positive
`size`, double until `size > mn` and `size ≥ bound`. -/
def fd_table_grow_loop (size mn bound : Nat) (h : 0 < size) : Nat :=
  if hc : size ≤ mn ∨ size < bound then
    fd_table_grow_loop (size * 2) mn bound (by omega)
  else size
termination_by mn + bound + 1 - size
decreasing_by omega

/-- The size computed by `fd_table_grow(ft, mn, incr)` on its success
path: unchanged when the constraints already hold, otherwise the result
of the doubling loop started at `size` (or at `1` for a fresh table). -/
def fd_table_grow_size (size used mn incr : Nat) : Nat :=
  if size ≤ mn ∨ size < (used + incr) * 2 then
    fd_table_grow_loop (if size = 0 then 1 else size) mn ((used + incr) * 2)
      (by split <;> omega)
  else size

/-- Embedding of `fd_table_grow` (success path): new slots are empty. -/
def fd_table_grow (t : FdTable) (mn incr : Nat) : FdTable :=
  { entries := t.entries ++
      List.replicate
        (fd_table_grow_size t.entries.length t.used mn incr - t.entries.length)
        none,
    used := t.used }

/-- Embedding of `fd_table_attach`: store the entry and bump `used`
(the C function asserts the slot is in range and empty). -/
def fd_table_attach (t : FdTable) (fd : Nat) (fe : FdEntry) : FdTable :=
  { entries := t.entries.set fd (some fe), used := t.used + 1 }

/-- Embedding of `fd_table_detach`: empty the slot and decrement
`used`, returning the detached entry.  Detaching an empty slot hits a C
`assert`, modelled as `none`. -/
def fd_table_detach (t : FdTable) (fd : Nat) : Option (FdEntry × FdTable) :=
  match t.entries.getD fd none with
  | none => none
  | some fe =>
      some (fe, { entries := t.entries.set fd none, used := t.used - 1 })

/-- `fd_table_insert` with the randomly picked empty slot `fd` made
explicit: grow for one extra descriptor, then attach. -/
def fd_table_insert_at (t : FdTable) (fd : Nat) (fe : FdEntry) : FdTable :=
  fd_table_attach (fd_table_grow t 0 1) fd fe

/-! ## `sys_fd_stat_put` (`CLOUDABI_FDSTAT_RIGHTS` case) -/

/-- Embedding of the `CLOUDABI_FDSTAT_RIGHTS` case of `sys_fd_stat_put`:
look the descriptor up demanding the requested masks as needed rights,
then overwrite the slot's masks with the requested ones. -/
def sys_fd_stat_put_rights (t : FdTable) (fd : Nat) (base inheriting : Nat) :
    Errno × FdTable :=
  match fd_table_get_entry t fd base inheriting with
  | .error e => (e, t)
  | .ok fe =>
      (.success,
        { entries := t.entries.set fd
            (some { fe with rights_base := base, rights_inheriting := inheriting }),
          used := t.used })

/-! ## `sys_fd_seek` -/

/-- The three valid `cloudabi_whence_t` values (an invalid value is
rejected with `EINVAL` before any table access). -/
inductive Whence where
  | cur
  | set
  | fend
  deriving DecidableEq, Repr

/-- The rights demanded by `sys_fd_seek`: only `FD_TELL` for
`whence == CUR && offset == 0`, otherwise `FD_SEEK | FD_TELL`. -/
def sys_fd_seek_rights (offset : Int) (whence : Whence) : Nat :=
  if offset = 0 ∧ whence = .cur then CLOUDABI_RIGHT_FD_TELL
  else CLOUDABI_RIGHT_FD_SEEK ||| CLOUDABI_RIGHT_FD_TELL

/-- Embedding of `sys_fd_seek` for a valid `whence`, with the host
`lseek` supplied as an oracle from `(host fd, offset, whence)` to the
new offset or a host errno. -/
def sys_fd_seek (t : FdTable) (fd : Nat) (offset : Int) (whence : Whence)
    (lseek : Int → Int → Whence → Except HostErrno Nat) : Errno :=
  match fd_table_get_entry t fd (sys_fd_seek_rights offset whence) 0 with
  | .error e => e
  | .ok fe =>
      match lseek fe.number offset whence with
      | .error e => convert_errno e
      | .ok _ => .success

/-! ## `sys_fd_replace` -/

/-- Embedding of `sys_fd_replace`.  The C code validates both slots,
detaches `to`, and then dereferences `fe_from->object` — a pointer into
the slot array that is re-read after the detach.  In a total embedding
that re-read yields an `Option`; the `none` outcome models the null
dereference that occurs when the detach emptied the very slot `from`
points at. -/
def sys_fd_replace (t : FdTable) (f g : Nat) : Option (Errno × FdTable) :=
  match fd_table_get_entry t f 0 0 with
  | .error e => some (e, t)
  | .ok _ =>
      match fd_table_get_entry t g 0 0 with
      | .error e => some (e, t)
      | .ok _ =>
          match fd_table_detach t g with
          | none => none
          | some (_, t1) =>
              match t1.entries.getD f none with
              | none => none
              | some feFrom => some (.success, fd_table_attach t1 g feFrom)

/-! ## `sys_fd_pread` scatter emulation (no `preadv` on the host) -/

/-- The scatter loop of `sys_fd_pread` when the host lacks vectored
positional I/O: after one positional read of `len` bytes into a single
buffer `buf`, walk the I/O vector lengths keeping the cursor `bufoff`;
while `bufoff + len_i < len` the vector receives its full length,
otherwise it receives the remaining `len - bufoff` bytes and the loop
breaks (later vectors receive nothing). -/
def sys_fd_pread_scatter (lens : List Nat) (buf : List Nat) (len bufoff : Nat) :
    List (List Nat) :=
  match lens with
  | [] => []
  | l :: ls =>
      if bufoff + l < len then
        ((buf.drop bufoff).take l) :: sys_fd_pread_scatter ls buf len (bufoff + l)
      else
        ((buf.drop bufoff).take (len - bufoff)) :: ls.map (fun _ => [])

/-- The vectored reference semantics as the spec words it: the bytes
read are scattered in order, each vector receiving its full length
until the bytes are exhausted. -/
def readv_scatter_ref (lens : List Nat) (data : List Nat) : List (List Nat) :=
  match lens with
  | [] => []
  | l :: ls => data.take l :: readv_scatter_ref ls (data.drop l)

/-! ## The emulated path resolver (`path_get` without Capsicum)

The resolver loop is embedded as a step function `resolveStep` (one
iteration of the C `for (;;)` loop, including the path-exhaustion code
at its bottom and the `push_symlink` block) iterated by `resolveRun`.
Host directory opens and symlink reads are oracles in `Fs`.  A ghost
`Acct` mirrors the resources the C code holds: malloc'd buffers not yet
freed, directory descriptors opened by the resolver and not yet closed,
and the reference on the directory handle's object.  The pathname-stack
pop at `posix.c:1366` frees an interior pointer — undefined behaviour —
which the embedding represents by a dedicated terminal outcome
(`RRes.invalidFree`) rather than by a repaired clean release. -/

/-- Pathname bytes (NUL-free, as `str_nullterminate` delivers them). -/
abbrev Path := List Char

/-- Outcome of `openat(fds[curfd], file, O_SEARCH|O_DIRECTORY|O_NOFOLLOW)`. -/
inductive OpenDirRes where
  | ok (fd : Int)
  | fail (e : HostErrno)

/-- The host filesystem as the resolver observes it; `readlink` stands
for `readlinkat_dup`, whose `NULL` return carries the host errno. -/
structure Fs where
  openDir : Int → Path → OpenDirRes
  readlink : Int → Path → Except HostErrno Path

/-- `strcspn(file, "/")`: the pathname component before the first slash. -/
def splitFile (p : Path) : Path := p.takeWhile (fun c => c ≠ '/')

/-- What follows the component, starting at `file_end`. -/
def splitAfter (p : Path) : Path := p.drop (splitFile p).length

/-- The rest of the pathname after also skipping the slashes (`strspn`). -/
def splitRest (p : Path) : Path := (splitAfter p).dropWhile (fun c => c = '/')

/-- Ghost resource accounting: buffers allocated and not yet freed,
resolver-opened host descriptors not yet closed, and whether the
reference on the directory object is still held. -/
structure Acct where
  live : Nat
  opened : Nat
  refHeld : Bool
  deriving DecidableEq, Repr

/-- Resolver loop state: `fdsRest` are the pushed directory descriptors
`fds[1..curfd]` (head = top; `fds[0]` is kept separately), `top` is
`paths[curpath]`, `rest` the pathnames below it on the stack, and
`expansions` the symlink-expansion counter. -/
structure RSt where
  fdsRest : List Int
  top : Path
  rest : List Path
  expansions : Nat
  acct : Acct
  deriving DecidableEq, Repr

/-- Resolver outcome: a lease (host dirfd plus residual pathname), an
error, or the undefined behaviour at `posix.c:1366`, each together with
the resource accounting at that point.  `invalidFree` marks the run
executing `free(paths[curpath--])` with `paths[curpath]` strictly
inside the allocation: an invalid free, after which the C semantics
give no defined continuation, so the embedding stops there.  The
carried accounting records what is still held: the invalid free
releases nothing, and the decrement of `curpath` moves the buffer out
of the range `paths_start[0..curpath]` that the `fail:` epilogue
frees. -/
inductive RRes where
  | ok (dirfd : Int) (residual : Path) (acct : Acct)
  | err (e : Errno) (acct : Acct)
  | invalidFree (acct : Acct)
  deriving DecidableEq, Repr

/-- The `cloudabi_errno_t` a defined `path_get` outcome corresponds to
(`none` for the run that ends in the invalid free). -/
def RRes.code : RRes → Option Errno
  | .ok _ _ _ => some .success
  | .err e _ => some e
  | .invalidFree _ => none

/-- One loop iteration either continues with a new state or finishes. -/
inductive StepRes where
  | cont (s : RSt)
  | done (r : RRes)
  deriving DecidableEq, Repr

/-- `fds[curfd]`: the top of the directory stack, `fds[0]` at depth 0. -/
def curDirFd (fd0 : Int) (fdsRest : List Int) : Int := fdsRest.headD fd0

/-- The `fail:` label of `path_get`: close `fds[1..curfd]`, free
`paths_start[0..curpath]`, release the object reference. -/
def failAcct (s : RSt) : Acct :=
  { live := s.acct.live - (s.rest.length + 1),
    opened := s.acct.opened - s.fdsRest.length,
    refHeld := false }

/-- The `success:` label: close `fds[1..curfd)`, keep the top descriptor
and the remaining pathname buffer inside the lease. -/
def succAcct (s : RSt) : Acct :=
  { live := s.acct.live,
    opened := s.acct.opened - (s.fdsRest.length - 1),
    refHeld := true }

/-- The exhausted-path success (residual `"."`): additionally frees
`paths_start[0]` (the lease's `path_start` becomes `NULL`). -/
def succDotAcct (s : RSt) : Acct :=
  { live := s.acct.live - 1,
    opened := s.acct.opened - (s.fdsRest.length - 1),
    refHeld := true }

/-- The code at the bottom of the resolver loop, entered with
`paths[curpath] = top'`.  When the current pathname is exhausted and
the pathname stack is empty, finish with residual `"."` — the
`free(paths_start[0])` at `posix.c:1358` passes the allocation's start
pointer and is valid.  When the pathname stack is non-empty
(`curpath > 0`), the source runs `free(paths[curpath--])`
(`posix.c:1366`); this point is only reached after a non-empty
component was consumed (the empty-component check at `posix.c:1272`
fails the loop first), so `paths[curpath]` lies strictly past
`paths_start[curpath]` and the free is invalid — undefined behaviour
that in any case releases none of the allocation, which the `fail:`
epilogue then also misses.  The embedding ends the run there with the
resources still held. -/
def stepExhaust (fd0 : Int) (s : RSt) (top' : Path) : StepRes :=
  if top'.isEmpty then
    match s.rest with
    | [] => .done (.ok (curDirFd fd0 s.fdsRest) ['.'] (succDotAcct s))
    | _ :: _ => .done (.invalidFree s.acct)
  else .cont { s with top := top' }

/-- The `push_symlink:` block.  `readlinkat_dup` has just allocated the
`target` buffer (`live + 1`).  Count the expansion and fail with
`ELOOP` at the 128th (freeing the buffer); replace the exhausted
current pathname (freeing it) or push onto the pathname stack (depth
limit 32, `ELOOP`); append a slash when the component had one. -/
def stepPushSymlink (s : RSt) (top' : Path) (ends : Bool) (target : Path) :
    StepRes :=
  if s.expansions + 1 = 128 then
    .done (.err .loop (failAcct { s with
      acct := { s.acct with live := s.acct.live + 1 - 1 } }))
  else if top'.isEmpty then
    .cont { s with
            top := if ends then target ++ ['/'] else target
            expansions := s.expansions + 1
            acct := { s.acct with live := s.acct.live + 1 - 1 } }
  else if s.rest.length + 1 = 32 then
    .done (.err .loop (failAcct { s with
      top := top'
      acct := { s.acct with live := s.acct.live + 1 - 1 } }))
  else
    .cont { s with
            top := if ends then target ++ ['/'] else target
            rest := top' :: s.rest
            expansions := s.expansions + 1
            acct := { s.acct with live := s.acct.live + 1 } }

/-- One iteration of the resolver loop of `path_get` in emulated mode:
split off the component, then handle the empty component, `"."`,
`".."`, an interior component (open as directory, else expand the
symlink), or the final component (optionally expand, else return the
lease with the slash restored, i.e. `file ++ afterFile`). -/
def resolveStep (fs : Fs) (follow needsFinal : Bool) (fd0 : Int) (s : RSt) :
    StepRes :=
  if (splitFile s.top).isEmpty then
    .done (.err (if !(splitAfter s.top).isEmpty then .notcapable else .noent)
      (failAcct s))
  else if splitFile s.top = ['.'] then
    stepExhaust fd0 s (splitRest s.top)
  else if splitFile s.top = ['.', '.'] then
    match s.fdsRest with
    | [] => .done (.err .notcapable (failAcct s))
    | _ :: fdsRest' =>
        stepExhaust fd0
          { s with
            fdsRest := fdsRest'
            acct := { s.acct with opened := s.acct.opened - 1 } }
          (splitRest s.top)
  else if !s.rest.isEmpty || !(splitRest s.top).isEmpty ||
      (!(splitAfter s.top).isEmpty && !needsFinal) then
    match fs.openDir (curDirFd fd0 s.fdsRest) (splitFile s.top) with
    | .ok newdir =>
        if s.fdsRest.length + 1 = 128 then
          .done (.err .nametoolong (failAcct { s with
            acct := { s.acct with opened := s.acct.opened + 1 - 1 } }))
        else
          stepExhaust fd0
            { s with
              fdsRest := newdir :: s.fdsRest
              acct := { s.acct with opened := s.acct.opened + 1 } }
            (splitRest s.top)
    | .fail e =>
        if e = .eloop ∨ e = .emlink then
          match fs.readlink (curDirFd fd0 s.fdsRest) (splitFile s.top) with
          | .ok target =>
              stepPushSymlink s (splitRest s.top)
                (!(splitAfter s.top).isEmpty) target
          | .error e2 => .done (.err (convert_errno e2) (failAcct s))
        else .done (.err (convert_errno e) (failAcct s))
  else
    if !(splitAfter s.top).isEmpty || follow then
      match fs.readlink (curDirFd fd0 s.fdsRest) (splitFile s.top) with
      | .ok target =>
          stepPushSymlink s (splitRest s.top)
            (!(splitAfter s.top).isEmpty) target
      | .error e =>
          if e ≠ .einval ∧ e ≠ .enoent then
            .done (.err (convert_errno e) (failAcct s))
          else .done (.ok (curDirFd fd0 s.fdsRest)
            (splitFile s.top ++ splitAfter s.top) (succAcct s))
    else .done (.ok (curDirFd fd0 s.fdsRest)
      (splitFile s.top ++ splitAfter s.top) (succAcct s))

/-- Termination measure over the pathname stack. -/
def pathsMeasure (s : RSt) : Nat :=
  s.top.length + (s.rest.map (fun p => p.length + 1)).sum

theorem splitRest_length_lt {p : Path} (h : splitFile p ≠ []) :
    (splitRest p).length < p.length := by
  have h1 : (splitFile p).length ≤ p.length :=
    (List.takeWhile_sublist _).length_le
  have h3 : (splitRest p).length ≤ (splitAfter p).length :=
    (List.dropWhile_sublist _).length_le
  have h2 : (splitAfter p).length = p.length - (splitFile p).length := by
    simp [splitAfter]
  have h4 : 0 < (splitFile p).length := List.length_pos.mpr h
  omega

theorem stepExhaust_cont {fd0 : Int} {s1 : RSt} {top' : Path} {s' : RSt}
    (h : stepExhaust fd0 s1 top' = .cont s') :
    s'.expansions = s1.expansions ∧
      pathsMeasure s' ≤
        top'.length + (s1.rest.map (fun p => p.length + 1)).sum := by
  unfold stepExhaust at h
  by_cases he : top'.isEmpty
  · rw [if_pos he] at h
    match hr : s1.rest with
    | [] => rw [hr] at h; cases h
    | r :: rs => rw [hr] at h; cases h
  · rw [if_neg he] at h
    cases h
    exact ⟨rfl, Nat.le_refl _⟩

theorem stepExhaust_cont_general {fd0 : Int} {s s1 : RSt} {s' : RSt}
    (h : stepExhaust fd0 s1 (splitRest s.top) = .cont s')
    (hrest : s1.rest = s.rest) (hx : s1.expansions = s.expansions)
    (hlt : (splitRest s.top).length < s.top.length) :
    s'.expansions = s.expansions ∧ pathsMeasure s' < pathsMeasure s := by
  obtain ⟨h1, h2⟩ := stepExhaust_cont h
  rw [hrest] at h2
  rw [hx] at h1
  refine ⟨h1, ?_⟩
  unfold pathsMeasure at h2 ⊢
  omega

theorem stepPushSymlink_cont {s1 : RSt} {top' : Path} {ends : Bool}
    {target : Path} {s' : RSt}
    (h : stepPushSymlink s1 top' ends target = .cont s') :
    s'.expansions = s1.expansions + 1 ∧ s1.expansions + 1 ≠ 128 := by
  unfold stepPushSymlink at h
  by_cases h1 : s1.expansions + 1 = 128
  · rw [if_pos h1] at h; cases h
  · rw [if_neg h1] at h
    by_cases h2 : top'.isEmpty
    · rw [if_pos h2] at h
      cases h
      exact ⟨rfl, h1⟩
    · rw [if_neg h2] at h
      by_cases h3 : s1.rest.length + 1 = 32
      · rw [if_pos h3] at h; cases h
      · rw [if_neg h3] at h
        cases h
        exact ⟨rfl, h1⟩

theorem resolveStep_cont_inv_exhaust {fd0 : Int} {s s1 s' : RSt}
    (hexp : s.expansions ≤ 127)
    (h : stepExhaust fd0 s1 (splitRest s.top) = .cont s')
    (hrest : s1.rest = s.rest) (hx : s1.expansions = s.expansions)
    (hlt : (splitRest s.top).length < s.top.length) :
    s'.expansions ≤ 127 ∧
      (128 - s'.expansions < 128 - s.expansions ∨
        (s'.expansions = s.expansions ∧ pathsMeasure s' < pathsMeasure s)) := by
  obtain ⟨he, hm⟩ := stepExhaust_cont_general h hrest hx hlt
  exact ⟨by omega, Or.inr ⟨he, hm⟩⟩

theorem resolveStep_cont_inv_push {s s' : RSt} {top' : Path} {ends : Bool}
    {target : Path} (hexp : s.expansions ≤ 127)
    (h : stepPushSymlink s top' ends target = .cont s') :
    s'.expansions ≤ 127 ∧
      (128 - s'.expansions < 128 - s.expansions ∨
        (s'.expansions = s.expansions ∧ pathsMeasure s' < pathsMeasure s)) := by
  obtain ⟨he, hne⟩ := stepPushSymlink_cont h
  exact ⟨by omega, Or.inl (by omega)⟩

theorem resolveStep_cont_inv (fs : Fs) (follow needsFinal : Bool) (fd0 : Int)
    (s s' : RSt) (h : resolveStep fs follow needsFinal fd0 s = .cont s')
    (hexp : s.expansions ≤ 127) :
    s'.expansions ≤ 127 ∧
      (128 - s'.expansions < 128 - s.expansions ∨
        (s'.expansions = s.expansions ∧ pathsMeasure s' < pathsMeasure s)) := by
  unfold resolveStep at h
  split at h
  · exact StepRes.noConfusion h
  · rename_i h0
    have hlt : (splitRest s.top).length < s.top.length :=
      splitRest_length_lt (by simpa using h0)
    repeat' split at h
    all_goals first
      | exact StepRes.noConfusion h
      | exact resolveStep_cont_inv_exhaust hexp h rfl rfl hlt
      | exact resolveStep_cont_inv_push hexp h

/-- The resolver loop of `path_get`: iterate `resolveStep` until done.
The expansion counter is at most 127 in every reachable state (it
starts at 0 and the 128th expansion terminates the loop), which
together with the shrinking pathname stack bounds the recursion. -/
def resolveRun (fs : Fs) (follow needsFinal : Bool) (fd0 : Int) (s : RSt)
    (hexp : s.expansions ≤ 127) : RRes :=
  match hstep : resolveStep fs follow needsFinal fd0 s with
  | .done r => r
  | .cont s' =>
      resolveRun fs follow needsFinal fd0 s'
        ((resolveStep_cont_inv fs follow needsFinal fd0 s s' hstep hexp).1)
termination_by (128 - s.expansions, pathsMeasure s)
decreasing_by
  rcases (resolveStep_cont_inv fs follow needsFinal fd0 s s' hstep hexp).2 with
    hd | hd
  · exact Prod.Lex.left _ _ hd
  · rw [hd.1]
    exact Prod.Lex.right _ hd.2

/-- Step-reachability between resolver states. -/
def Reaches (fs : Fs) (follow needsFinal : Bool) (fd0 : Int) : RSt → RSt → Prop :=
  Relation.ReflTransGen
    (fun a b => resolveStep fs follow needsFinal fd0 a = .cont b)

/-- The state the resolver loop starts from: the caller's path as the
only pathname (one allocated buffer), no pushed directories, no
expansions, one reference held on the directory object. -/
def initSt (upath : Path) : RSt :=
  { fdsRest := [], top := upath, rest := [], expansions := 0,
    acct := { live := 1, opened := 0, refHeld := true } }

/-- Embedding of `path_get` in emulated mode (no `CONFIG_HAS_CAP_ENTER`):
duplicate the path (`str_nullterminate`; NUL-free paths assumed),
acquire the directory object under the needed rights — on a table error
the path buffer is freed and nothing stays held — then run the
resolver loop. -/
def path_get (t : FdTable) (fs : Fs) (dirfd : Nat) (follow : Bool)
    (upath : Path) (rights_base rights_inheriting : Nat)
    (needs_final_component : Bool) : RRes :=
  match fd_table_get_entry t dirfd rights_base rights_inheriting with
  | .error e => .err e { live := 0, opened := 0, refHeld := false }
  | .ok fe =>
      resolveRun fs follow needs_final_component fe.number (initSt upath)
        (Nat.zero_le 127)

/-- The resource invariant the resolver loop maintains: one live buffer
per pathname-stack entry, one opened descriptor per pushed directory,
and the object reference held. -/
def AcctInv (s : RSt) : Prop :=
  s.acct.live = s.rest.length + 1 ∧ s.acct.opened = s.fdsRest.length ∧
    s.acct.refHeld = true

/-! ## `sys_sock_send` -/

/-- Object reference counts (`struct refcount` of each `fd_object`),
indexed by object identity. -/
def Heap : Type := Nat → Int

/-- `refcount_acquire` on object `o`. -/
def incRef (h : Heap) (o : Nat) : Heap :=
  fun x => if x = o then h x + 1 else h x

/-- `refcount_release` on object `o` (teardown at zero not modelled). -/
def decRef (h : Heap) (o : Nat) : Heap :=
  fun x => if x = o then h x - 1 else h x

/-- The release loop at the `out:` label: drop the acquired references
in acquisition order. -/
def releaseAll (h : Heap) : List Nat → Heap
  | [] => h
  | o :: os => releaseAll (decRef h o) os

/-- Result of the host `sendmsg`: bytes sent or a host errno. -/
inductive SendRes where
  | ok (len : Nat)
  | fail (e : HostErrno)
  deriving DecidableEq, Repr

/-- The descriptor-acquisition loop of `sys_sock_send`: look each
handle of `si_fds` up (no rights demanded), acquire a reference on its
object, and fail with `EBADF` on a virtual descriptor (`number < 0`,
acquired reference still counted in `nfos`).  Returns the error if
any, the heap after the acquisitions, and the acquired objects
(`fos[0..nfos)`) in order. -/
def sock_send_acquire (t : FdTable) (h : Heap) :
    List Nat → Option Errno × Heap × List Nat
  | [] => (none, h, [])
  | fd :: fds =>
      match fd_table_get_entry t fd 0 0 with
      | .error e => (some e, h, [])
      | .ok fe =>
          if fe.number < 0 then (some .badf, incRef h fe.obj, [fe.obj])
          else
            ((sock_send_acquire t (incRef h fe.obj) fds).1,
              (sock_send_acquire t (incRef h fe.obj) fds).2.1,
              fe.obj :: (sock_send_acquire t (incRef h fe.obj) fds).2.2)

/-- Embedding of `sys_sock_send`: acquire a reference per descriptor in
`si_fds` while filling the SCM_RIGHTS message, acquire the socket under
`FD_WRITE` (released right after `sendmsg`), and on every path release
the acquired references at `out:`.  The two malloc'd buffers are freed
at `out:` unconditionally, so the heap of reference counts is the state
tracked.  Returns the errno and the final heap. -/
def sys_sock_send (t : FdTable) (h : Heap) (sock : Nat) (si_fds : List Nat)
    (send : SendRes) : Errno × Heap :=
  match sock_send_acquire t h si_fds with
  | (some e, h1, objs) => (e, releaseAll h1 objs)
  | (none, h1, objs) =>
      match fd_table_get_entry t sock CLOUDABI_RIGHT_FD_WRITE 0 with
      | .error e => (e, releaseAll h1 objs)
      | .ok fe =>
          match send with
          | .fail e =>
              (convert_errno e, releaseAll (decRef (incRef h1 fe.obj) fe.obj) objs)
          | .ok _ =>
              (.success, releaseAll (decRef (incRef h1 fe.obj) fe.obj) objs)

/-! ## Concrete instances used by witness theorems -/

/-- A heap giving every object one reference. -/
def heap1 : Heap := fun _ => 1

/-- A filesystem with no directories and no symlinks. -/
def fsEmpty : Fs :=
  { openDir := fun _ _ => .fail .enoent,
    readlink := fun _ _ => .error .einval }

/-- Unary symlink-chain names: `chainName i` is the pathname `a^(i+1)`. -/
def chainName (i : Nat) : Path := List.replicate (i + 1) 'a'

/-- A filesystem holding the symlink chain `a → aa → … → a^(n+1)`:
every all-`a` name of length at most `n` is a symlink to the name one
letter longer, and `a^(n+1)` is not a symlink (so the chain has `n`
links).  No directory is ever opened on a single-component chain. -/
def chainFs (n : Nat) : Fs :=
  { openDir := fun _ _ => .fail .eio,
    readlink := fun _ p =>
      if 1 ≤ p.length ∧ p.length ≤ n ∧ p.all (fun c => c == 'a') then
        .ok (List.replicate (p.length + 1) 'a')
      else .error .einval }

/-- The resolver state after `i` expansions of the chain. -/
def chainSt (i : Nat) : RSt :=
  { fdsRest := [], top := chainName i, rest := [], expansions := i,
    acct := { live := 1, opened := 0, refHeld := true } }

/-- A regular-file-like entry holding read, seek and tell rights. -/
def feA : FdEntry :=
  { obj := 1, number := 3,
    rights_base :=
      CLOUDABI_RIGHT_FD_READ ||| CLOUDABI_RIGHT_FD_SEEK ||| CLOUDABI_RIGHT_FD_TELL,
    rights_inheriting := CLOUDABI_RIGHT_FD_READ }

/-- A quarter-full eight-slot table with `feA` in slots 0 and 1. -/
def tA : FdTable :=
  { entries := [some feA, some feA, none, none, none, none, none, none],
    used := 2 }

/-- A host `lseek` oracle that always reports offset 7. -/
def lseekA : Int → Int → Whence → Except HostErrno Nat := fun _ _ _ => .ok 7

/-- A filesystem where `s` is a symlink to `"."`: `openat` with
`O_NOFOLLOW` fails `ELOOP` on it and `readlinkat_dup` yields `"."`. -/
def fsDot : Fs :=
  { openDir := fun _ _ => .fail .eloop,
    readlink := fun _ p =>
      if p = ['s'] then .ok ['.'] else .error .einval }

/-- A filesystem where `s` is a symlink to the real directory `d`:
`openat` succeeds on `d` (host descriptor 9), fails `ELOOP` on the
symlink `s`, and `readlinkat_dup` resolves `s` to `"d"`. -/
def fsDir : Fs :=
  { openDir := fun _ p => if p = ['d'] then .ok 9 else .fail .eloop,
    readlink := fun _ p =>
      if p = ['s'] then .ok ['d'] else .error .einval }

/-! ## Helper lemmas -/

theorem convert_errno_ne_notcapable (e : HostErrno) :
    convert_errno e ≠ .notcapable := by
  cases e <;> simp [convert_errno]

/-- For 64-bit masks, the C test `(~have & need) == 0` (written with
`~have` as `have ^^^ (2^64 - 1)`) says exactly that every bit of `need`
is present in `have`. -/
theorem land_compl64_eq_zero_iff {b n : Nat} (hn : n < 2 ^ 64) :
    ((b ^^^ U64_MAX) &&& n = 0) ↔ n &&& b = n := by
  unfold U64_MAX
  have hhigh : ∀ i, 64 ≤ i → n.testBit i = false := fun i hi =>
    Nat.testBit_eq_false_of_lt
      (lt_of_lt_of_le hn (Nat.pow_le_pow_right (by norm_num) hi))
  constructor
  · intro h
    apply Nat.eq_of_testBit_eq
    intro i
    have hz : ((b ^^^ (2 ^ 64 - 1)) &&& n).testBit i = false := by
      rw [h]; exact Nat.zero_testBit i
    rw [Nat.testBit_and, Nat.testBit_xor, Nat.testBit_two_pow_sub_one] at hz
    rw [Nat.testBit_and]
    by_cases hi : i < 64
    · simp only [hi, decide_True, Bool.xor_true] at hz
      cases hbi : b.testBit i <;> cases hni : n.testBit i <;> simp_all
    · rw [hhigh i (by omega)]
      simp
  · intro h
    apply Nat.eq_of_testBit_eq
    intro i
    have hz : (n &&& b).testBit i = n.testBit i := by rw [h]
    rw [Nat.testBit_and] at hz
    rw [Nat.testBit_and, Nat.testBit_xor, Nat.testBit_two_pow_sub_one,
      Nat.zero_testBit]
    by_cases hi : i < 64
    · simp only [hi, decide_True, Bool.xor_true]
      cases hbi : b.testBit i <;> cases hni : n.testBit i <;> simp_all
    · rw [hhigh i (by omega)]
      simp

theorem slot_some_getElem {α : Type} {l : List (Option α)} {fd : Nat} {x : α}
    (h : l.getD fd none = some x) : l[fd]? = some (some x) := by
  rw [List.getD_eq_getElem?_getD] at h
  match hq : l[fd]? with
  | none => rw [hq] at h; simp at h
  | some none => rw [hq] at h; simp at h
  | some (some y) =>
      rw [hq] at h
      simp only [Option.getD_some] at h
      rw [h]

theorem slot_some_lt {α : Type} {l : List (Option α)} {fd : Nat} {x : α}
    (h : l.getD fd none = some x) : fd < l.length := by
  have := slot_some_getElem h
  exact (List.getElem?_eq_some.mp this).1

theorem fd_table_grow_loop_spec (size mn bound : Nat) (h : 0 < size) :
    mn < fd_table_grow_loop size mn bound h ∧
      bound ≤ fd_table_grow_loop size mn bound h := by
  rw [fd_table_grow_loop]
  split
  · exact fd_table_grow_loop_spec (size * 2) mn bound (by omega)
  · omega
termination_by mn + bound + 1 - size
decreasing_by omega

theorem fd_table_grow_loop_ge (size mn bound : Nat) (h : 0 < size) :
    size ≤ fd_table_grow_loop size mn bound h := by
  rw [fd_table_grow_loop]
  split
  · have := fd_table_grow_loop_ge (size * 2) mn bound (by omega)
    omega
  · omega
termination_by mn + bound + 1 - size
decreasing_by omega

theorem fd_table_grow_size_spec (size used mn incr : Nat) :
    mn < fd_table_grow_size size used mn incr ∧
      (used + incr) * 2 ≤ fd_table_grow_size size used mn incr := by
  rw [fd_table_grow_size]
  split
  · exact fd_table_grow_loop_spec _ _ _ _
  · omega

theorem fd_table_grow_size_ge (size used mn incr : Nat) :
    size ≤ fd_table_grow_size size used mn incr := by
  rw [fd_table_grow_size]
  split
  · exact le_trans (show size ≤ (if size = 0 then 1 else size) by split <;> omega)
      (fd_table_grow_loop_ge _ _ _ _)
  · omega

theorem fd_table_grow_size_eq (t : FdTable) (mn incr : Nat) :
    (fd_table_grow t mn incr).size =
      fd_table_grow_size t.entries.length t.used mn incr := by
  have := fd_table_grow_size_ge t.entries.length t.used mn incr
  simp only [fd_table_grow, FdTable.size, List.length_append, List.length_replicate]
  omega

/-! ## Claim theorems -/

/-- C4: for an occupied slot with rights `(b, i)`, restricting the
rights (`fd_stat_put` with `CLOUDABI_FDSTAT_RIGHTS`) to any
`(b', i')` with `b' ⊆ b` and `i' ⊆ i` succeeds and a subsequent get
with `(b', i')` succeeds; for a request containing a bit outside
`(b, i)` the operation fails with `ENOTCAPABLE` and the slot (indeed
the whole table) is unchanged. -/
theorem sys_fd_stat_put_rights_spec (t : FdTable) (fd : Nat) (fe : FdEntry)
    (hslot : t.entries.getD fd none = some fe)
    (b' i' : Nat) (hb' : b' < 2 ^ 64) (hi' : i' < 2 ^ 64) :
    ((b' &&& fe.rights_base = b' ∧ i' &&& fe.rights_inheriting = i') →
      (sys_fd_stat_put_rights t fd b' i').1 = .success ∧
      fd_table_get_entry (sys_fd_stat_put_rights t fd b' i').2 fd b' i' =
        .ok { fe with rights_base := b', rights_inheriting := i' }) ∧
    ((¬ b' &&& fe.rights_base = b' ∨ ¬ i' &&& fe.rights_inheriting = i') →
      sys_fd_stat_put_rights t fd b' i' = (.notcapable, t)) := by
  have hlt := slot_some_lt hslot
  have hq := slot_some_getElem hslot
  constructor
  · rintro ⟨hsb, hsi⟩
    have hcb : (fe.rights_base ^^^ U64_MAX) &&& b' = 0 :=
      (land_compl64_eq_zero_iff hb').mpr hsb
    have hci : (fe.rights_inheriting ^^^ U64_MAX) &&& i' = 0 :=
      (land_compl64_eq_zero_iff hi').mpr hsi
    have hget : fd_table_get_entry t fd b' i' = .ok fe := by
      simp only [fd_table_get_entry, List.getD_eq_getElem?_getD, hq,
        Option.getD_some]
      rw [if_neg]
      push_neg
      exact ⟨hcb, hci⟩
    have hres : sys_fd_stat_put_rights t fd b' i' =
        (.success,
          { entries := t.entries.set fd
              (some { fe with rights_base := b', rights_inheriting := i' }),
            used := t.used }) := by
      simp [sys_fd_stat_put_rights, hget]
    refine ⟨by rw [hres], ?_⟩
    rw [hres]
    have hset : (t.entries.set fd
        (some { fe with rights_base := b', rights_inheriting := i' }))[fd]? =
        some (some { fe with rights_base := b', rights_inheriting := i' }) :=
      List.getElem?_set_self hlt
    have hb'c : (b' ^^^ U64_MAX) &&& b' = 0 :=
      (land_compl64_eq_zero_iff hb').mpr (Nat.and_self b')
    have hi'c : (i' ^^^ U64_MAX) &&& i' = 0 :=
      (land_compl64_eq_zero_iff hi').mpr (Nat.and_self i')
    simp only [fd_table_get_entry, List.getD_eq_getElem?_getD, hset,
      Option.getD_some]
    rw [if_neg]
    push_neg
    exact ⟨hb'c, hi'c⟩
  · intro hout
    have hcond : (fe.rights_base ^^^ U64_MAX) &&& b' ≠ 0 ∨
        (fe.rights_inheriting ^^^ U64_MAX) &&& i' ≠ 0 := by
      rcases hout with hb | hi
      · exact Or.inl fun h => hb ((land_compl64_eq_zero_iff hb').mp h)
      · exact Or.inr fun h => hi ((land_compl64_eq_zero_iff hi').mp h)
    have hget : fd_table_get_entry t fd b' i' = .error .notcapable := by
      simp only [fd_table_get_entry, List.getD_eq_getElem?_getD, hq,
        Option.getD_some]
      rw [if_pos hcond]
    simp [sys_fd_stat_put_rights, hget]

theorem sys_fd_stat_put_rights_spec_witness :
    (tA.entries.getD 0 none = some feA ∧
      CLOUDABI_RIGHT_FD_READ < 2 ^ 64 ∧ (0 : Nat) < 2 ^ 64 ∧
      CLOUDABI_RIGHT_FD_READ &&& feA.rights_base = CLOUDABI_RIGHT_FD_READ ∧
      (0 : Nat) &&& feA.rights_inheriting = 0) ∧
    (sys_fd_stat_put_rights tA 0 CLOUDABI_RIGHT_FD_READ 0).1 = .success :=
  ⟨⟨by decide, by norm_num [CLOUDABI_RIGHT_FD_READ], by norm_num, by decide, by decide⟩,
    ((sys_fd_stat_put_rights_spec tA 0 feA (by decide) CLOUDABI_RIGHT_FD_READ 0
        (by norm_num [CLOUDABI_RIGHT_FD_READ]) (by norm_num)).1
      ⟨by decide, by decide⟩).1⟩

/-- C5: the doubling loop of `fd_table_grow` establishes both
`size > min` and `size ≥ 2·(used+incr)`; `fd_table_attach` preserves
`2·used ≤ size` given the headroom the preceding grow guarantees; and
the composed insert leaves the table at most half full. -/
theorem fd_table_half_full (t : FdTable) (mn incr fd : Nat) (fe : FdEntry) :
    (mn < (fd_table_grow t mn incr).size ∧
      (t.used + incr) * 2 ≤ (fd_table_grow t mn incr).size) ∧
    ((t.used + 1) * 2 ≤ t.size →
      (fd_table_attach t fd fe).used * 2 ≤ (fd_table_attach t fd fe).size) ∧
    (fd_table_insert_at t fd fe).used * 2 ≤ (fd_table_insert_at t fd fe).size := by
  refine ⟨?_, ?_, ?_⟩
  · rw [fd_table_grow_size_eq]
    have h1 := fd_table_grow_size_spec t.entries.length t.used mn incr
    have h2 : (fd_table_grow t mn incr).used = t.used := rfl
    exact h1
  · intro h
    simp only [fd_table_attach, FdTable.size, List.length_set] at h ⊢
    omega
  · have hg := fd_table_grow_size_spec t.entries.length t.used 0 1
    have hsz := fd_table_grow_size_eq t 0 1
    have hu : (fd_table_grow t 0 1).used = t.used := rfl
    simp only [fd_table_insert_at, fd_table_attach, FdTable.size,
      List.length_set] at hsz ⊢
    omega

theorem fd_table_half_full_witness :
    ((tA.used + 1) * 2 ≤ tA.size) ∧
      (fd_table_attach tA 2 feA).used * 2 ≤ (fd_table_attach tA 2 feA).size :=
  ⟨by decide, (fd_table_half_full tA 0 1 2 feA).2.1 (by decide)⟩

/-- C6 (counterexample): for a relative clock timeout of
2147483648000000 ns the code passes `-1` (infinite) to the host poll,
while the claim's "divided by 10⁶, clamped to the host's poll-timeout
range" yields `INT_MAX = 2147483647`. -/
theorem sys_poll_timeout_counterexample :
    sys_poll_timeout 0 (some 2147483648000000) = -1 ∧
    sys_poll_timeout_claim 0 (some 2147483648000000) = 2147483647 ∧
    sys_poll_timeout 0 (some 2147483648000000) ≠
      sys_poll_timeout_claim 0 (some 2147483648000000) := by
  refine ⟨?_, ?_, ?_⟩ <;> decide

/-- C6 (amended): the host poll timeout is zero if any immediate events
were already queued; `-1` if no relative clock subscription contributes
a timer; otherwise the clock subscription's timeout in nanoseconds
divided by 10⁶ when that quotient is at most `INT_MAX`, and `-1` (wait
indefinitely) when it exceeds `INT_MAX`. -/
theorem sys_poll_timeout_amended_spec (n : Nat) (c : Option Nat) :
    sys_poll_timeout n c = sys_poll_timeout_amended n c := by
  unfold sys_poll_timeout sys_poll_timeout_amended
  rcases c with _ | t
  · rfl
  · by_cases hn : n ≠ 0
    · simp [hn]
    · by_cases ht : t / 1000000 > INT_MAX
      · simp [hn, ht, Nat.not_le.mpr ht]
      · simp [hn, ht, Nat.not_lt.mp ht]

/-- C7: host timespec to nanoseconds: negative seconds yield 0; seconds
at or above `⌊2⁶⁴/10⁹⌋` yield `2⁶⁴ - 1`; otherwise exactly
`sec·10⁹ + nsec`. -/
theorem convert_timespec_spec (sec nsec : Int)
    (h0 : 0 ≤ nsec) (h1 : nsec < 1000000000) :
    (sec < 0 → convert_timespec sec nsec = 0) ∧
    (0 ≤ sec → (2 ^ 64 / 1000000000 : Nat) ≤ sec.toNat →
      convert_timespec sec nsec = 2 ^ 64 - 1) ∧
    (0 ≤ sec → sec.toNat < (2 ^ 64 / 1000000000 : Nat) →
      (convert_timespec sec nsec : Int) = sec * 1000000000 + nsec) := by
  have hthr : (U64_MAX / 1000000000 : Nat) = 2 ^ 64 / 1000000000 := by
    norm_num [U64_MAX]
  refine ⟨?_, ?_, ?_⟩
  · intro h
    simp [convert_timespec, h]
  · intro hpos hbig
    rw [convert_timespec, if_neg (by omega), if_pos (by omega)]
    rfl
  · intro hpos hsmall
    have hlt : ¬ sec < 0 := by omega
    have hno : ¬ sec.toNat ≥ U64_MAX / 1000000000 := by omega
    rw [convert_timespec, if_neg hlt, if_neg hno]
    have hb1 : sec.toNat < 2 ^ 64 / 1000000000 := hsmall
    have hval : sec.toNat * 1000000000 + nsec.toNat < 2 ^ 64 := by
      have : (2 ^ 64 / 1000000000 : Nat) = 18446744073 := by norm_num
      omega
    rw [Nat.mod_eq_of_lt hval]
    omega

theorem convert_timespec_spec_witness :
    ((0 : Int) ≤ 123 ∧ (123 : Int) < 1000000000 ∧ (0 : Int) ≤ 7 ∧
      (7 : Int).toNat < (2 ^ 64 / 1000000000 : Nat)) ∧
    (convert_timespec 7 123 : Int) = 7 * 1000000000 + 123 :=
  ⟨⟨by norm_num, by norm_num, by norm_num, by norm_num⟩,
    (convert_timespec_spec 7 123 (by norm_num) (by norm_num)).2.2
      (by norm_num) (by norm_num)⟩

/-- Shared helper for C8: for an occupied slot, the embedded
`sys_fd_seek` returns `ENOTCAPABLE` exactly when a bit of the rights it
demands is missing from the slot's base mask. -/
theorem sys_fd_seek_notcapable_iff (t : FdTable) (fd : Nat) (fe : FdEntry)
    (hslot : t.entries.getD fd none = some fe)
    (offset : Int) (whence : Whence)
    (lseek : Int → Int → Whence → Except HostErrno Nat)
    (hneed : sys_fd_seek_rights offset whence < 2 ^ 64) :
    (sys_fd_seek t fd offset whence lseek = .notcapable ↔
      ¬ sys_fd_seek_rights offset whence &&& fe.rights_base =
          sys_fd_seek_rights offset whence) := by
  have hq := slot_some_getElem hslot
  by_cases hc : sys_fd_seek_rights offset whence &&& fe.rights_base =
      sys_fd_seek_rights offset whence
  · have h0 : (fe.rights_base ^^^ U64_MAX) &&& sys_fd_seek_rights offset whence = 0 :=
      (land_compl64_eq_zero_iff hneed).mpr hc
    have hget : fd_table_get_entry t fd (sys_fd_seek_rights offset whence) 0 =
        .ok fe := by
      simp only [fd_table_get_entry, List.getD_eq_getElem?_getD, hq,
        Option.getD_some]
      rw [if_neg]
      push_neg
      exact ⟨h0, by simp⟩
    cases hl : lseek fe.number offset whence with
    | error e => simp [sys_fd_seek, hget, hl, convert_errno_ne_notcapable e, hc]
    | ok v => simp [sys_fd_seek, hget, hl, hc]
  · have h0 : (fe.rights_base ^^^ U64_MAX) &&& sys_fd_seek_rights offset whence ≠ 0 :=
      fun h => hc ((land_compl64_eq_zero_iff hneed).mp h)
    have hget : fd_table_get_entry t fd (sys_fd_seek_rights offset whence) 0 =
        .error .notcapable := by
      simp only [fd_table_get_entry, List.getD_eq_getElem?_getD, hq,
        Option.getD_some]
      rw [if_pos (Or.inl h0)]
    simp [sys_fd_seek, hget, hc]

/-- C8: for `whence = current` and `offset = 0` only the `tell` right is
demanded; for every other combination both `seek` and `tell` are
demanded; in each case the embedded `sys_fd_seek` fails with
`ENOTCAPABLE` exactly when a demanded bit is missing from the slot's
base rights. -/
theorem sys_fd_seek_rights_spec (t : FdTable) (fd : Nat) (fe : FdEntry)
    (hslot : t.entries.getD fd none = some fe)
    (offset : Int) (whence : Whence)
    (lseek : Int → Int → Whence → Except HostErrno Nat) :
    (offset = 0 ∧ whence = .cur →
      sys_fd_seek_rights offset whence = CLOUDABI_RIGHT_FD_TELL ∧
      (sys_fd_seek t fd offset whence lseek = .notcapable ↔
        ¬ CLOUDABI_RIGHT_FD_TELL &&& fe.rights_base = CLOUDABI_RIGHT_FD_TELL)) ∧
    (¬ (offset = 0 ∧ whence = .cur) →
      sys_fd_seek_rights offset whence =
        (CLOUDABI_RIGHT_FD_SEEK ||| CLOUDABI_RIGHT_FD_TELL) ∧
      (sys_fd_seek t fd offset whence lseek = .notcapable ↔
        ¬ (CLOUDABI_RIGHT_FD_SEEK ||| CLOUDABI_RIGHT_FD_TELL) &&& fe.rights_base =
            (CLOUDABI_RIGHT_FD_SEEK ||| CLOUDABI_RIGHT_FD_TELL))) := by
  constructor
  · intro hcase
    have hr : sys_fd_seek_rights offset whence = CLOUDABI_RIGHT_FD_TELL := by
      simp [sys_fd_seek_rights, hcase]
    refine ⟨hr, ?_⟩
    have := sys_fd_seek_notcapable_iff t fd fe hslot offset whence lseek
      (by rw [hr]; decide)
    rwa [hr] at this
  · intro hcase
    have hr : sys_fd_seek_rights offset whence =
        (CLOUDABI_RIGHT_FD_SEEK ||| CLOUDABI_RIGHT_FD_TELL) := by
      simp [sys_fd_seek_rights, hcase]
    refine ⟨hr, ?_⟩
    have := sys_fd_seek_notcapable_iff t fd fe hslot offset whence lseek
      (by rw [hr]; decide)
    rwa [hr] at this

theorem sys_fd_seek_rights_spec_witness :
    (tA.entries.getD 0 none = some feA ∧ ((0 : Int) = 0 ∧ Whence.cur = .cur)) ∧
    (sys_fd_seek tA 0 0 .cur lseekA = .notcapable ↔
      ¬ CLOUDABI_RIGHT_FD_TELL &&& feA.rights_base = CLOUDABI_RIGHT_FD_TELL) :=
  ⟨⟨by decide, rfl, rfl⟩,
    ((sys_fd_seek_rights_spec tA 0 feA (by decide) 0 .cur lseekA).1
      ⟨rfl, rfl⟩).2⟩

/-- C10: `sys_fd_replace` detaches the destination slot before
acquiring a reference through the source slot pointer.  With
`from = to` the acquisition re-reads the just-emptied slot, so the
total embedding yields `none` (the C code dereferences a null object
pointer); with `from ≠ to` and both slots occupied the call succeeds. -/
theorem sys_fd_replace_self_spec (t : FdTable) (f g : Nat)
    (feF feG : FdEntry)
    (hf : t.entries.getD f none = some feF)
    (hg : t.entries.getD g none = some feG) :
    (f = g → sys_fd_replace t f g = none) ∧
    (f ≠ g →
      sys_fd_replace t f g =
        some (.success,
          fd_table_attach { entries := t.entries.set g none, used := t.used - 1 }
            g feF)) := by
  have hqf := slot_some_getElem hf
  have hqg := slot_some_getElem hg
  have hgf : fd_table_get_entry t f 0 0 = .ok feF := by
    simp only [fd_table_get_entry, List.getD_eq_getElem?_getD, hqf,
      Option.getD_some]
    rw [if_neg]
    push_neg
    simp
  have hgg : fd_table_get_entry t g 0 0 = .ok feG := by
    simp only [fd_table_get_entry, List.getD_eq_getElem?_getD, hqg,
      Option.getD_some]
    rw [if_neg]
    push_neg
    simp
  have hdet : fd_table_detach t g =
      some (feG, { entries := t.entries.set g none, used := t.used - 1 }) := by
    simp only [fd_table_detach, List.getD_eq_getElem?_getD, hqg,
      Option.getD_some]
  constructor
  · intro heq
    subst heq
    have hread : (t.entries.set f none)[f]? = some none :=
      List.getElem?_set_self (slot_some_lt hf)
    simp [sys_fd_replace, hgf, hgg, hdet, hread]
  · intro hne
    have hread : (t.entries.set g none)[f]? = some (some feF) := by
      rw [List.getElem?_set_ne (fun h => hne h.symm), hqf]
    simp [sys_fd_replace, hgf, hgg, hdet, hread]

theorem sys_fd_replace_self_spec_witness :
    (tA.entries.getD 0 none = some feA ∧ tA.entries.getD 0 none = some feA ∧
      (0 : Nat) = 0) ∧
    sys_fd_replace tA 0 0 = none :=
  ⟨⟨by decide, by decide, rfl⟩,
    (sys_fd_replace_self_spec tA 0 0 feA feA (by decide) (by decide)).1 rfl⟩

theorem readv_scatter_ref_nil (lens : List Nat) :
    readv_scatter_ref lens [] = lens.map (fun _ => []) := by
  induction lens with
  | nil => rfl
  | cons l ls ih => simp [readv_scatter_ref, ih]

theorem sys_fd_pread_scatter_eq_ref (lens : List Nat) (buf : List Nat)
    (bufoff : Nat) (hoff : bufoff ≤ buf.length) :
    sys_fd_pread_scatter lens buf buf.length bufoff =
      readv_scatter_ref lens (buf.drop bufoff) := by
  induction lens generalizing bufoff with
  | nil => rfl
  | cons l ls ih =>
      simp only [sys_fd_pread_scatter, readv_scatter_ref]
      by_cases hc : bufoff + l < buf.length
      · rw [if_pos hc, ih (bufoff + l) (by omega), List.drop_drop]
      · rw [if_neg hc]
        have h1 : (buf.drop bufoff).take (buf.length - bufoff) = buf.drop bufoff :=
          List.take_of_length_le (by simp only [List.length_drop]; omega)
        have h2 : (buf.drop bufoff).take l = buf.drop bufoff :=
          List.take_of_length_le (by simp only [List.length_drop]; omega)
        have h3 : (buf.drop bufoff).drop l = [] :=
          List.drop_eq_nil_of_le (by simp only [List.length_drop]; omega)
        rw [h1, h2, h3, readv_scatter_ref_nil]

theorem readv_scatter_ref_sum (lens : List Nat) (data : List Nat)
    (hle : data.length ≤ lens.sum) :
    ((readv_scatter_ref lens data).map List.length).sum = data.length := by
  induction lens generalizing data with
  | nil =>
      simp only [List.sum_nil, Nat.le_zero] at hle
      simp [readv_scatter_ref, hle]
  | cons l ls ih =>
      simp only [List.sum_cons] at hle
      simp only [readv_scatter_ref, List.map_cons, List.sum_cons]
      rw [ih (data.drop l) (by simp only [List.length_drop]; omega)]
      simp only [List.length_take, List.length_drop]
      omega

/-- C9: on hosts without vectored positional I/O, for an I/O vector of
length greater than one the concatenate-then-scatter emulation of
`sys_fd_pread` is equivalent to the vectored reference semantics: the
single positional read's bytes are scattered in order, each vector
receiving its full length until the bytes are exhausted, and `nread`
(the single read's length, which the code reports) equals the total
number of scattered bytes. -/
theorem sys_fd_pread_scatter_spec (lens : List Nat) (buf : List Nat)
    (hcnt : 1 < lens.length) (hle : buf.length ≤ lens.sum) :
    sys_fd_pread_scatter lens buf buf.length 0 = readv_scatter_ref lens buf ∧
    ((readv_scatter_ref lens buf).map List.length).sum = buf.length := by
  constructor
  · have := sys_fd_pread_scatter_eq_ref lens buf 0 (by omega)
    simpa using this
  · exact readv_scatter_ref_sum lens buf hle

theorem sys_fd_pread_scatter_spec_witness :
    (1 < ([2, 3, 4] : List Nat).length ∧
      ([9, 8, 7, 6, 5] : List Nat).length ≤ ([2, 3, 4] : List Nat).sum) ∧
    sys_fd_pread_scatter [2, 3, 4] [9, 8, 7, 6, 5] 5 0 =
      readv_scatter_ref [2, 3, 4] [9, 8, 7, 6, 5] :=
  ⟨⟨by decide, by decide⟩,
    (sys_fd_pread_scatter_spec [2, 3, 4] [9, 8, 7, 6, 5] (by decide) (by decide)).1⟩

theorem resolveRun_done {fs : Fs} {follow needsFinal : Bool} {fd0 : Int}
    {s : RSt} {r : RRes} (hexp : s.expansions ≤ 127)
    (h : resolveStep fs follow needsFinal fd0 s = .done r) :
    resolveRun fs follow needsFinal fd0 s hexp = r := by
  rw [resolveRun]
  split
  · rename_i r' hr
    rw [h] at hr
    cases hr
    rfl
  · rename_i s' hr
    rw [h] at hr
    cases hr

theorem resolveRun_cont {fs : Fs} {follow needsFinal : Bool} {fd0 : Int}
    {s s' : RSt} (hexp : s.expansions ≤ 127) (hexp' : s'.expansions ≤ 127)
    (h : resolveStep fs follow needsFinal fd0 s = .cont s') :
    resolveRun fs follow needsFinal fd0 s hexp =
      resolveRun fs follow needsFinal fd0 s' hexp' := by
  rw [resolveRun]
  split
  · rename_i r hr
    rw [h] at hr
    cases hr
  · rename_i s'' hr
    rw [h] at hr
    cases hr
    rfl

theorem reaches_exp_le {fs : Fs} {follow needsFinal : Bool} {fd0 : Int}
    {s s' : RSt} (h : Reaches fs follow needsFinal fd0 s s')
    (hexp : s.expansions ≤ 127) : s'.expansions ≤ 127 := by
  induction h with
  | refl => exact hexp
  | tail hr hstep ih => exact (resolveStep_cont_inv _ _ _ _ _ _ hstep ih).1

theorem resolveRun_reaches {fs : Fs} {follow needsFinal : Bool} {fd0 : Int}
    {s s' : RSt} (h : Reaches fs follow needsFinal fd0 s s')
    (hexp : s.expansions ≤ 127) :
    resolveRun fs follow needsFinal fd0 s hexp =
      resolveRun fs follow needsFinal fd0 s' (reaches_exp_le h hexp) := by
  induction h with
  | refl => rfl
  | tail hr hstep ih =>
      rw [ih]
      exact resolveRun_cont _ _ hstep

/-- A `..` component processed while the directory stack is at depth
zero makes the resolver fail with `ENOTCAPABLE` on the spot. -/
theorem resolveStep_dotdot_depth0 (fs : Fs) (follow needsFinal : Bool)
    (fd0 : Int) (s : RSt) (hdd : splitFile s.top = ['.', '.'])
    (hdepth : s.fdsRest = []) :
    resolveStep fs follow needsFinal fd0 s =
      .done (.err .notcapable (failAcct s)) := by
  unfold resolveStep
  rw [hdd, hdepth]
  simp

/-- The resolver state on the input `"s/.."` after the expansion of the
symlink `s → "."`: the symlink text `"./"` on top, the remainder `".."`
pushed below it, two live buffers. -/
def dotSt1 : RSt :=
  { fdsRest := [], top := ['.', '/'], rest := [['.', '.']], expansions := 1,
    acct := { live := 2, opened := 0, refHeld := true } }

/-- C1 (refuted by a code bug at `posix.c:1366`): the claim says every
resolver input whose fully normalized path contains a `..` rising above
the input directory fails with `not-capable`.  The input `"s/.."` with
`s` a symlink to `"."` is in that class — it normalizes to a depth-zero
`..` — yet for every `follow` and every `needs_final_component` the run
ends at the invalid `free(paths[curpath--])` once the expanded `"./"`
is consumed, before the `..` is ever processed: the call executes
undefined behaviour instead of returning `not-capable`. -/
theorem path_get_dotdot_invalid_free (follow nf : Bool) :
    path_get tA fsDot 0 follow ['s', '/', '.', '.'] 0 0 nf =
      .invalidFree { live := 2, opened := 0, refHeld := true } ∧
    ∀ a : Acct,
      RRes.invalidFree { live := 2, opened := 0, refHeld := true } ≠
        RRes.err Errno.notcapable a := by
  refine ⟨?_, fun a h => RRes.noConfusion h⟩
  unfold path_get
  rw [show fd_table_get_entry tA 0 0 0 = .ok feA from rfl]
  have h1 : resolveRun fsDot follow nf feA.number
        (initSt ['s', '/', '.', '.']) (Nat.zero_le 127) =
      resolveRun fsDot follow nf feA.number dotSt1 (by decide) :=
    resolveRun_cont (Nat.zero_le 127) (by decide) rfl
  have h2 : resolveRun fsDot follow nf feA.number dotSt1 (by decide) =
      .invalidFree { live := 2, opened := 0, refHeld := true } :=
    resolveRun_done (by decide) rfl
  exact h1.trans h2

/-! ## C2: the symlink chain -/

theorem takeWhile_neSlash_replicate (m : Nat) :
    (List.replicate m 'a').takeWhile (fun c => c ≠ '/') = List.replicate m 'a' := by
  induction m with
  | zero => rfl
  | succ k ih => simp [List.replicate_succ, List.takeWhile_cons, ih]

theorem all_eqa_replicate (m : Nat) :
    (List.replicate m 'a').all (fun c => c == 'a') = true := by
  induction m with
  | zero => rfl
  | succ k ih => simp [List.replicate_succ, ih]

theorem chainName_splitFile (i : Nat) :
    splitFile (chainName i) = chainName i :=
  takeWhile_neSlash_replicate (i + 1)

theorem chainName_splitAfter (i : Nat) : splitAfter (chainName i) = [] := by
  unfold splitAfter
  rw [chainName_splitFile]
  have : (chainName i).length = (chainName i).length := rfl
  exact List.drop_length _

theorem chainName_splitRest (i : Nat) : splitRest (chainName i) = [] := by
  unfold splitRest
  rw [chainName_splitAfter]
  rfl

theorem chainName_isEmpty (i : Nat) : (chainName i).isEmpty = false := by
  simp [chainName, List.replicate_succ]

theorem chainName_ne_dot (i : Nat) : chainName i ≠ ['.'] := by
  simp [chainName, List.replicate_succ]

theorem chainName_ne_dotdot (i : Nat) : chainName i ≠ ['.', '.'] := by
  simp [chainName, List.replicate_succ]

theorem chain_readlink (n i : Nat) (fd : Int) (hin : i < n) :
    (chainFs n).readlink fd (chainName i) = .ok (chainName (i + 1)) := by
  show (if 1 ≤ (chainName i).length ∧ (chainName i).length ≤ n ∧
      (chainName i).all (fun c => c == 'a') then
      (Except.ok (List.replicate ((chainName i).length + 1) 'a') :
        Except HostErrno Path)
    else .error .einval) = .ok (chainName (i + 1))
  rw [if_pos]
  · simp [chainName, List.length_replicate]
  · refine ⟨?_, ?_, ?_⟩
    · simp [chainName, List.length_replicate]
    · simp only [chainName, List.length_replicate]
      omega
    · exact all_eqa_replicate (i + 1)

theorem chain_readlink_stop (n : Nat) (fd : Int) :
    (chainFs n).readlink fd (chainName n) = .error .einval := by
  show (if 1 ≤ (chainName n).length ∧ (chainName n).length ≤ n ∧
      (chainName n).all (fun c => c == 'a') then
      (Except.ok (List.replicate ((chainName n).length + 1) 'a') :
        Except HostErrno Path)
    else .error .einval) = .error .einval
  rw [if_neg]
  rintro ⟨-, h2, -⟩
  simp only [chainName, List.length_replicate] at h2
  omega

theorem chainStep_expand (n : Nat) (nf : Bool) (fd0 : Int) (i : Nat)
    (hin : i < n) (h128 : i + 1 ≠ 128) :
    resolveStep (chainFs n) true nf fd0 (chainSt i) = .cont (chainSt (i + 1)) := by
  unfold resolveStep
  rw [show (chainSt i).top = chainName i from rfl,
    show (chainSt i).rest = ([] : List Path) from rfl,
    show (chainSt i).fdsRest = ([] : List Int) from rfl,
    chainName_splitFile, chainName_splitAfter, chainName_splitRest,
    chainName_isEmpty]
  rw [if_neg (by simp), if_neg (chainName_ne_dot i),
    if_neg (chainName_ne_dotdot i), if_neg (by simp),
    if_pos (by simp)]
  rw [show curDirFd fd0 ([] : List Int) = fd0 from rfl,
    chain_readlink n i fd0 hin]
  show stepPushSymlink (chainSt i) [] false (chainName (i + 1)) =
    .cont (chainSt (i + 1))
  unfold stepPushSymlink
  rw [show (chainSt i).expansions = i from rfl, if_neg h128]
  rfl

theorem chainStep_final (n : Nat) (nf : Bool) (fd0 : Int) :
    resolveStep (chainFs n) true nf fd0 (chainSt n) =
      .done (.ok fd0 (chainName n)
        { live := 1, opened := 0, refHeld := true }) := by
  unfold resolveStep
  rw [show (chainSt n).top = chainName n from rfl,
    show (chainSt n).rest = ([] : List Path) from rfl,
    show (chainSt n).fdsRest = ([] : List Int) from rfl,
    chainName_splitFile, chainName_splitAfter, chainName_splitRest,
    chainName_isEmpty]
  rw [if_neg (by simp), if_neg (chainName_ne_dot n),
    if_neg (chainName_ne_dotdot n), if_neg (by simp),
    if_pos (by simp)]
  rw [show curDirFd fd0 ([] : List Int) = fd0 from rfl,
    chain_readlink_stop n fd0]
  simp [succAcct, chainSt]

theorem chainStep_limit (n : Nat) (nf : Bool) (fd0 : Int) (hn : 127 < n) :
    resolveStep (chainFs n) true nf fd0 (chainSt 127) =
      .done (.err .loop { live := 0, opened := 0, refHeld := false }) := by
  unfold resolveStep
  rw [show (chainSt 127).top = chainName 127 from rfl,
    show (chainSt 127).rest = ([] : List Path) from rfl,
    show (chainSt 127).fdsRest = ([] : List Int) from rfl,
    chainName_splitFile, chainName_splitAfter, chainName_splitRest,
    chainName_isEmpty]
  rw [if_neg (by simp), if_neg (chainName_ne_dot 127),
    if_neg (chainName_ne_dotdot 127), if_neg (by simp),
    if_pos (by simp)]
  rw [show curDirFd fd0 ([] : List Int) = fd0 from rfl,
    chain_readlink n 127 fd0 (by omega)]
  rfl

theorem chainRun_ok (n : Nat) (hn : n ≤ 127) (nf : Bool) (fd0 : Int) :
    ∀ k i, i + k = n → ∀ hi : (chainSt i).expansions ≤ 127,
      resolveRun (chainFs n) true nf fd0 (chainSt i) hi =
        .ok fd0 (chainName n) { live := 1, opened := 0, refHeld := true } := by
  intro k
  induction k with
  | zero =>
      intro i hik hi
      have hin : i = n := by omega
      subst hin
      exact resolveRun_done hi (chainStep_final _ nf fd0)
  | succ m ih =>
      intro i hik hi
      have hi127 : i ≤ 127 := hi
      have hstep := chainStep_expand n nf fd0 i (by omega) (by omega)
      rw [resolveRun_cont hi (show i + 1 ≤ 127 by omega) hstep]
      exact ih (i + 1) (by omega) _

theorem chainRun_loop (n : Nat) (hn : 127 < n) (nf : Bool) (fd0 : Int) :
    ∀ k i, i + k = 127 → ∀ hi : (chainSt i).expansions ≤ 127,
      resolveRun (chainFs n) true nf fd0 (chainSt i) hi =
        .err .loop { live := 0, opened := 0, refHeld := false } := by
  intro k
  induction k with
  | zero =>
      intro i hik hi
      have hin : i = 127 := by omega
      subst hin
      exact resolveRun_done hi (chainStep_limit n nf fd0 hn)
  | succ m ih =>
      intro i hik hi
      have hstep := chainStep_expand n nf fd0 i (by omega) (by omega)
      rw [resolveRun_cont hi (show i + 1 ≤ 127 by omega) hstep]
      exact ih (i + 1) (by omega) _

/-- C2: on the chain filesystem, `path_get` with symlink-follow
succeeds for every chain of length at most 127 ending in a non-symlink,
and fails with `ELOOP` once the chain requires 128 expansions. -/
theorem path_get_symlink_chain (t : FdTable) (dirfd : Nat) (fe : FdEntry)
    (hslot : t.entries.getD dirfd none = some fe) (nf : Bool) (n : Nat) :
    (n ≤ 127 →
      path_get t (chainFs n) dirfd true (chainName 0) 0 0 nf =
        .ok fe.number (chainName n)
          { live := 1, opened := 0, refHeld := true }) ∧
    (128 ≤ n →
      path_get t (chainFs n) dirfd true (chainName 0) 0 0 nf =
        .err .loop { live := 0, opened := 0, refHeld := false }) := by
  have hq := slot_some_getElem hslot
  have hget : fd_table_get_entry t dirfd 0 0 = .ok fe := by
    simp only [fd_table_get_entry, List.getD_eq_getElem?_getD, hq,
      Option.getD_some]
    rw [if_neg]
    push_neg
    simp
  constructor
  · intro hn
    unfold path_get
    simp only [hget]
    exact chainRun_ok n hn nf fe.number n 0 (by omega) (Nat.zero_le 127)
  · intro hn
    unfold path_get
    simp only [hget]
    exact chainRun_loop n (by omega) nf fe.number 127 0 (by omega)
      (Nat.zero_le 127)

theorem path_get_symlink_chain_witness :
    (tA.entries.getD 0 none = some feA ∧ (2 : Nat) ≤ 127 ∧
      (128 : Nat) ≤ 128) ∧
    path_get tA (chainFs 2) 0 true (chainName 0) 0 0 false =
      .ok feA.number (chainName 2) { live := 1, opened := 0, refHeld := true } ∧
    path_get tA (chainFs 128) 0 true (chainName 0) 0 0 false =
      .err .loop { live := 0, opened := 0, refHeld := false } :=
  ⟨⟨by decide, by decide, by decide⟩,
    (path_get_symlink_chain tA 0 feA (by decide) false 2).1 (by decide),
    (path_get_symlink_chain tA 0 feA (by decide) false 128).2 (by decide)⟩

/-! ## C3: resource accounting on error paths

Every *defined* error exit of the resolver carries zero accounting
(`resolveRun_err_acct`), and `sys_sock_send` restores every reference
count it acquired; the one way a run ends holding resources is the
invalid free at `posix.c:1366`, exhibited below. -/

theorem stepExhaust_inv' {fd0 : Int} {s1 : RSt} {top' : Path} {s' : RSt}
    (h : stepExhaust fd0 s1 top' = .cont s')
    (h1 : s1.acct.live = s1.rest.length + 1)
    (h2 : s1.acct.opened = s1.fdsRest.length)
    (h3 : s1.acct.refHeld = true) : AcctInv s' := by
  unfold stepExhaust at h
  by_cases he : top'.isEmpty
  · rw [if_pos he] at h
    split at h
    · cases h
    · cases h
  · rw [if_neg he] at h
    cases h
    exact ⟨h1, h2, h3⟩

theorem stepPushSymlink_inv' {s1 : RSt} {top' : Path} {ends : Bool}
    {target : Path} {s' : RSt}
    (h : stepPushSymlink s1 top' ends target = .cont s')
    (h1 : s1.acct.live = s1.rest.length + 1)
    (h2 : s1.acct.opened = s1.fdsRest.length)
    (h3 : s1.acct.refHeld = true) : AcctInv s' := by
  unfold stepPushSymlink at h
  by_cases c1 : s1.expansions + 1 = 128
  · rw [if_pos c1] at h; cases h
  · rw [if_neg c1] at h
    by_cases c2 : top'.isEmpty
    · rw [if_pos c2] at h
      cases h
      refine ⟨?_, h2, h3⟩
      show s1.acct.live + 1 - 1 = s1.rest.length + 1
      omega
    · rw [if_neg c2] at h
      by_cases c3 : s1.rest.length + 1 = 32
      · rw [if_pos c3] at h; cases h
      · rw [if_neg c3] at h
        cases h
        refine ⟨?_, h2, h3⟩
        show s1.acct.live + 1 = (top' :: s1.rest).length + 1
        simp only [List.length_cons]
        omega

theorem resolveStep_acct_inv (fs : Fs) (follow needsFinal : Bool) (fd0 : Int)
    (s s' : RSt) (h : resolveStep fs follow needsFinal fd0 s = .cont s')
    (hinv : AcctInv s) : AcctInv s' := by
  obtain ⟨h1, h2, h3⟩ := hinv
  unfold resolveStep at h
  split at h
  · cases h
  · split at h
    · exact stepExhaust_inv' h h1 h2 h3
    · split at h
      · split at h
        · cases h
        · next f fr hfd =>
            refine stepExhaust_inv' h h1 ?_ h3
            show s.acct.opened - 1 = fr.length
            rw [h2, hfd]
            rfl
      · split at h
        · split at h
          · next newdir ho =>
              split at h
              · cases h
              · refine stepExhaust_inv' h h1 ?_ h3
                show s.acct.opened + 1 = (newdir :: s.fdsRest).length
                rw [h2]
                rfl
          · next e ho =>
              split at h
              · split at h
                · exact stepPushSymlink_inv' h h1 h2 h3
                · cases h
              · cases h
        · split at h
          · split at h
            · exact stepPushSymlink_inv' h h1 h2 h3
            · split at h
              · cases h
              · cases h
          · cases h

theorem stepExhaust_done_ok {fd0 : Int} {s1 : RSt} {top' : Path} {e : Errno}
    {a : Acct} : stepExhaust fd0 s1 top' ≠ .done (.err e a) := by
  unfold stepExhaust
  split
  · split <;> simp
  · simp

theorem stepPushSymlink_done_err {s1 : RSt} {top' : Path} {ends : Bool}
    {target : Path} {e : Errno} {a : Acct}
    (h : stepPushSymlink s1 top' ends target = .done (.err e a))
    (h1 : s1.acct.live = s1.rest.length + 1)
    (h2 : s1.acct.opened = s1.fdsRest.length) :
    a = { live := 0, opened := 0, refHeld := false } := by
  unfold stepPushSymlink at h
  split at h
  · cases h
    simp only [failAcct, Acct.mk.injEq, and_true]
    omega
  · split at h
    · cases h
    · split at h
      · cases h
        simp only [failAcct, Acct.mk.injEq, and_true]
        omega
      · cases h

theorem resolveStep_done_err_acct (fs : Fs) (follow needsFinal : Bool)
    (fd0 : Int) (s : RSt) (e : Errno) (a : Acct)
    (h : resolveStep fs follow needsFinal fd0 s = .done (.err e a))
    (hinv : AcctInv s) : a = { live := 0, opened := 0, refHeld := false } := by
  obtain ⟨h1, h2, h3⟩ := hinv
  unfold resolveStep at h
  repeat' split at h
  all_goals first
    | exact absurd h stepExhaust_done_ok
    | exact stepPushSymlink_done_err h h1 h2
    | exact RRes.noConfusion (StepRes.done.inj h)
    | (cases h
       simp only [failAcct, Acct.mk.injEq, and_true]
       omega)

theorem resolveRun_err_acct (fs : Fs) (follow needsFinal : Bool) (fd0 : Int)
    (s : RSt) (hexp : s.expansions ≤ 127) (hinv : AcctInv s) (e : Errno)
    (a : Acct) (h : resolveRun fs follow needsFinal fd0 s hexp = .err e a) :
    a = { live := 0, opened := 0, refHeld := false } := by
  rw [resolveRun] at h
  split at h
  · rename_i r hr
    exact resolveStep_done_err_acct fs follow needsFinal fd0 s e a
      (h ▸ hr) hinv
  · rename_i s' hr
    have hexp' := (resolveStep_cont_inv fs follow needsFinal fd0 s s' hr hexp).1
    have hinv' := resolveStep_acct_inv fs follow needsFinal fd0 s s' hr hinv
    have hdec := (resolveStep_cont_inv fs follow needsFinal fd0 s s' hr hexp).2
    exact resolveRun_err_acct fs follow needsFinal fd0 s' hexp' hinv' e a h
termination_by (128 - s.expansions, pathsMeasure s)
decreasing_by
  rcases hdec with hd | hd
  · exact Prod.Lex.left _ _ hd
  · rw [hd.1]
    exact Prod.Lex.right _ hd.2

theorem decRef_incRef (h : Heap) (o : Nat) : decRef (incRef h o) o = h := by
  funext x
  unfold decRef incRef
  split_ifs <;> omega

theorem decRef_comm (h : Heap) (o a : Nat) :
    decRef (decRef h o) a = decRef (decRef h a) o := by
  funext x
  unfold decRef
  split_ifs <;> omega

theorem releaseAll_decRef (h : Heap) (o : Nat) (l : List Nat) :
    releaseAll (decRef h o) l = decRef (releaseAll h l) o := by
  induction l generalizing h with
  | nil => rfl
  | cons a as ih =>
      show releaseAll (decRef (decRef h o) a) as =
        decRef (releaseAll (decRef h a) as) o
      rw [decRef_comm, ih]

theorem sock_send_acquire_balanced (t : FdTable) (l : List Nat) (h : Heap) :
    releaseAll (sock_send_acquire t h l).2.1 (sock_send_acquire t h l).2.2 =
      h := by
  induction l generalizing h with
  | nil => rfl
  | cons fd fds ih =>
      unfold sock_send_acquire
      cases hget : fd_table_get_entry t fd 0 0 with
      | error e => simp [releaseAll]
      | ok fe =>
          by_cases hn : fe.number < 0
          · simp only [hn, if_true, if_pos hn]
            show releaseAll (decRef (incRef h fe.obj) fe.obj) [] = h
            rw [decRef_incRef]
            rfl
          · simp only [hn, if_neg hn]
            show releaseAll
              (decRef (sock_send_acquire t (incRef h fe.obj) fds).2.1 fe.obj)
              (sock_send_acquire t (incRef h fe.obj) fds).2.2 = h
            rw [releaseAll_decRef, ih (incRef h fe.obj), decRef_incRef]

theorem sys_sock_send_heap (t : FdTable) (h : Heap) (sock : Nat)
    (si_fds : List Nat) (send : SendRes) :
    (sys_sock_send t h sock si_fds send).2 = h := by
  unfold sys_sock_send
  have hb := sock_send_acquire_balanced t si_fds h
  cases hacq : sock_send_acquire t h si_fds with
  | mk oe rest =>
      cases rest with
      | mk h1 objs =>
          rw [hacq] at hb
          cases oe with
          | some e => exact hb
          | none =>
              cases hget : fd_table_get_entry t sock CLOUDABI_RIGHT_FD_WRITE 0 with
              | error e => exact hb
              | ok fe =>
                  cases send with
                  | fail e2 => show releaseAll (decRef (incRef h1 fe.obj) fe.obj) objs = h
                               rw [decRef_incRef]; exact hb
                  | ok len => show releaseAll (decRef (incRef h1 fe.obj) fe.obj) objs = h
                              rw [decRef_incRef]; exact hb

/-- A concrete failing `path_get` call: looking up `..` at depth zero
is a defined error exit and carries zero accounting. -/
theorem path_get_concrete_err :
    path_get tA fsEmpty 0 false ['.', '.'] 0 0 false =
      .err .notcapable { live := 0, opened := 0, refHeld := false } := by
  unfold path_get
  rw [show fd_table_get_entry tA 0 0 0 = .ok feA from rfl]
  exact resolveRun_done (Nat.zero_le 127)
    (resolveStep_dotdot_depth0 fsEmpty false false feA.number
      (initSt ['.', '.']) (by decide) rfl)

/-- The resolver state on the input `"s/x/y"` after the expansion of
the symlink `s → "d"`: the symlink text `"d/"` on top, the remainder
`"x/y"` pushed below it, two live buffers. -/
def dirSt1 : RSt :=
  { fdsRest := [], top := ['d', '/'], rest := [['x', '/', 'y']], expansions := 1,
    acct := { live := 2, opened := 0, refHeld := true } }

/-- C3 (refuted by a code bug at `posix.c:1366`): the claim says every
erroring call releases everything it acquired before returning.  On the
input `"s/x/y"` with `s` a symlink to the real directory `d`, the
mid-path expansion of `s` completes (the expanded `"d/"` is consumed
after `d` is opened) and the run reaches `free(paths[curpath--])` with
an interior pointer while holding two pathname buffers, one
resolver-opened descriptor and the object reference: the invalid free
releases none of them (undefined behaviour), the decrement moves the
finished buffer out of the `fail:` epilogue's range, and no defined
error return ever happens — so the error path leaks. -/
theorem path_get_midpath_expansion_leak (follow nf : Bool) :
    path_get tA fsDir 0 follow ['s', '/', 'x', '/', 'y'] 0 0 nf =
      .invalidFree { live := 2, opened := 1, refHeld := true } ∧
    ∀ (e : Errno) (a : Acct),
      RRes.invalidFree { live := 2, opened := 1, refHeld := true } ≠
        RRes.err e a := by
  refine ⟨?_, fun e a h => RRes.noConfusion h⟩
  unfold path_get
  rw [show fd_table_get_entry tA 0 0 0 = .ok feA from rfl]
  have h1 : resolveRun fsDir follow nf feA.number
        (initSt ['s', '/', 'x', '/', 'y']) (Nat.zero_le 127) =
      resolveRun fsDir follow nf feA.number dirSt1 (by decide) :=
    resolveRun_cont (Nat.zero_le 127) (by decide) rfl
  have h2 : resolveRun fsDir follow nf feA.number dirSt1 (by decide) =
      .invalidFree { live := 2, opened := 1, refHeld := true } :=
    resolveRun_done (by decide) rfl
  exact h1.trans h2

end CloudABI
